import Mathlib

/-! Verification of the branch-aware migration planner in ms/alembic_ops.py.
    The pure fragments of the code are embedded as Lean functions; the external
    collaborators (git listings, the alembic subprocess, the branch scan) are
    injected as explicit parameters, mirroring section 6 of the design. -/

/-- One parsed migration script: the revision id, the optional down-revision
    link and the source path, exactly the dict built by get_revisions_in_branch. -/
structure RevisionRecord where
  id : String
  down_revision : Option String
  file : String
deriving Repr, DecidableEq

/-- Python truthiness of an optional string: None and the empty string are falsy. -/
def truthyOpt : Option String → Bool
  | none => false
  | some s => !(s == "")

/-- Single-quote character, used by the value stripping in get_revisions_in_branch. -/
def squote : Char := Char.ofNat 39

/-- Ids of a record list, in list order. -/
def revIds (revs : List RevisionRecord) : List String :=
  revs.map (fun r => r.id)

/-- The rev_lookup dict of build_revision_chain: a python dict comprehension in
    which later records overwrite earlier ones, so lookup finds the last record
    carrying the given id. -/
def rev_lookup (revs : List RevisionRecord) (i : String) : Option RevisionRecord :=
  revs.reverse.find? (fun r => r.id == i)

/-- Number of distinct ids not yet visited; this bounds the remaining
    iterations of the backward walk in build_revision_chain. -/
def walkMeasure (revs : List RevisionRecord) (visited : List String) : Nat :=
  (((revIds revs).dedup).filter (fun i => decide (¬ i ∈ visited))).length

/-- The while loop of build_revision_chain: walk backwards from the head,
    prepending each visited id, stopping on a falsy id, a missing record or a
    revisit. The loop is given fuel; build_revision_chain passes enough fuel
    (the number of distinct ids) and chainWalk_fuel_irrel below shows the
    result is then independent of the exact amount, so the fuel never cuts the
    walk short: the python loop terminates on its own. -/
def chainWalk (revs : List RevisionRecord) : Nat → Option String → List String → List String → List String
  | _, none, _, chain => chain
  | 0, some _, _, chain => chain
  | fuel + 1, some c, visited, chain =>
    if c = "" then chain
    else
      match rev_lookup revs c with
      | none => chain
      | some r =>
        if c ∈ visited then chain
        else chainWalk revs fuel r.down_revision (c :: visited) (c :: chain)

/-- The children set of build_revision_chain: every truthy down-revision. -/
def chain_children (revisions : List RevisionRecord) : List String :=
  revisions.filterMap (fun r => if truthyOpt r.down_revision then r.down_revision else none)

/-- The head search of build_revision_chain: the first record whose id no
    truthy down-revision references, falling back to the first record when the
    search fails or finds a falsy id. -/
def chain_head (r0 : RevisionRecord) (revisions : List RevisionRecord) : String :=
  match revisions.find? (fun r => !((chain_children revisions).contains r.id)) with
  | some r => if r.id = "" then r0.id else r.id
  | none => r0.id

/-- build_revision_chain with explicit fuel for the backward walk. -/
def build_revision_chain_fuel (fuel : Nat) (revisions : List RevisionRecord) : List String :=
  match revisions with
  | [] => []
  | r0 :: _ => chainWalk revisions fuel (some (chain_head r0 revisions)) [] []

/-- build_revision_chain from ms/alembic_ops.py: find the head (first record
    whose id no truthy down-revision references, falling back to the first
    record), then walk backwards to the root. -/
def build_revision_chain (revisions : List RevisionRecord) : List String :=
  build_revision_chain_fuel (((revIds revisions).dedup).length) revisions

/-- find_common_revision from ms/alembic_ops.py: scan the source chain
    root-to-head and keep the most recent id also present in the target chain. -/
def find_common_revision (current_revisions target_revisions : List RevisionRecord) : Option String :=
  let current_chain := build_revision_chain current_revisions
  let target_chain := build_revision_chain target_revisions
  current_chain.foldl (fun common c => if c ∈ target_chain then some c else common) none

/-- The migration plan dict returned by get_migration_plan. -/
structure MigrationPlan where
  current_db_revision : String
  common_revision : Option String
  target_head_revision : Option String
  needs_downgrade : Bool
  needs_upgrade : Bool
deriving Repr, DecidableEq

/-- The error dict returned by get_migration_plan; missing_revision and
    found_in_branches are only present on the unrecoverable-ghost error. -/
structure PlanError where
  message : String
  missing_revision : Option String
  found_in_branches : Option (List String)
deriving Repr, DecidableEq

/-- Result of get_migration_plan: None, a plan dict, or an error dict. -/
inductive PlanOutcome where
  | noMigration : PlanOutcome
  | plan : MigrationPlan → PlanOutcome
  | planError : PlanError → PlanOutcome
deriving Repr, DecidableEq

/-- Whether the returned dict is an error dict. -/
def PlanOutcome.isError : PlanOutcome → Bool
  | .planError _ => true
  | _ => false

/-- The needs_upgrade expression bool(target_head and target_head != current_db_rev). -/
def plan_needs_upgrade (target_head : Option String) (current_db_rev : String) : Bool :=
  match target_head with
  | none => false
  | some h => if h = "" then false else if h = current_db_rev then false else true

/-- The needs_downgrade computation of get_migration_plan, python list.index
    modelled by findIdx? with the ValueError fallback to True. -/
def plan_needs_downgrade (current_chain : List String) (common_rev : Option String)
    (current_db_rev : String) : Bool :=
  match common_rev with
  | none => false
  | some cr =>
    if cr = "" then false
    else if current_db_rev = cr then false
    else
      match current_chain.findIdx? (fun y => y = cr),
            current_chain.findIdx? (fun y => y = current_db_rev) with
      | some common_idx, some current_idx => decide (common_idx < current_idx)
      | _, _ => true

/-- get_migration_plan from ms/alembic_ops.py. The database status query result
    is injected as current_db_rev (None when alembic current failed); the
    revision sets of the two branches are injected as record lists; the
    find_revision_in_branches diagnostic scan is injected as branch_search. -/
def get_migration_plan (current_db_rev : Option String)
    (current_revisions target_revisions : List RevisionRecord)
    (branch_search : String → List String) : PlanOutcome :=
  match current_db_rev with
  | none =>
    .planError ⟨"Could not determine current database revision. Database may be unreachable.",
      none, none⟩
  | some db =>
    if db = "" then
      .planError ⟨"Could not determine current database revision. Database may be unreachable.",
        none, none⟩
    else if current_revisions = [] ∧ target_revisions = [] then
      .noMigration
    else if db ∈ revIds current_revisions then
      .plan ⟨db, find_common_revision current_revisions target_revisions,
        (build_revision_chain target_revisions).getLast?,
        plan_needs_downgrade (build_revision_chain current_revisions)
          (find_common_revision current_revisions target_revisions) db,
        plan_needs_upgrade (build_revision_chain target_revisions).getLast? db⟩
    else if db ∈ revIds target_revisions then
      .plan ⟨db, none, (build_revision_chain target_revisions).getLast?, false,
        plan_needs_upgrade (build_revision_chain target_revisions).getLast? db⟩
    else
      .planError ⟨"Database is at revision " ++ db ++
        ", which is missing from both current and target branches. Cannot calculate migration path.",
        some db, some (branch_search db)⟩

/-- Strip leading and trailing characters satisfying p, like python str.strip. -/
def strip2 (p : Char → Bool) (s : List Char) : List Char :=
  ((s.dropWhile p).reverse.dropWhile p).reverse

/-- python str.strip() with no argument: strip whitespace. -/
def pyStripWs (s : List Char) : List Char := strip2 Char.isWhitespace s

/-- python .strip with the two quote characters, as in get_revisions_in_branch. -/
def stripQuotes (s : List Char) : List Char :=
  strip2 (fun c => c == squote || c == '"') s

/-- Everything after the first equals sign, python line.split with limit 1;
    none when the line holds no equals sign. -/
def afterFirstEq : List Char → Option (List Char)
  | [] => none
  | c :: rest => if c = '=' then some rest else afterFirstEq rest

/-- Split file content on newline characters, python splitlines. -/
def splitNl : List Char → List Char → List (List Char)
  | [], acc => [acc.reverse]
  | c :: rest, acc =>
    if c = '\n' then acc.reverse :: splitNl rest [] else splitNl rest (c :: acc)

/-- The two values accumulated while scanning one script in get_revisions_in_branch. -/
structure ParseState where
  revision_id : Option String
  down_revision : Option String
deriving Repr, DecidableEq

/-- One iteration of the line scan in get_revisions_in_branch: accept the plain
    and the type-annotated assignment syntax, strip whitespace then quotes, and
    map the literal None down-revision to null. -/
def parseLine (st : ParseState) (rawLine : List Char) : ParseState :=
  let line := pyStripWs rawLine
  if ("revision:".data).isPrefixOf line || ("revision =".data).isPrefixOf line then
    match afterFirstEq line with
    | some rest => { st with revision_id := some ⟨stripQuotes (pyStripWs rest)⟩ }
    | none => st
  else if ("down_revision:".data).isPrefixOf line || ("down_revision =".data).isPrefixOf line then
    match afterFirstEq line with
    | some rest =>
      let v : String := ⟨stripQuotes (pyStripWs rest)⟩
      { st with down_revision := if v = "None" then none else some v }
    | none => st
  else st

/-- Scan all lines of one script. -/
def parse_revision_script (content : String) : ParseState :=
  (splitNl content.data []).foldl parseLine ⟨none, none⟩

/-- The record built for one script file, none when no truthy revision id was
    extracted (the script is silently skipped). -/
def parsed_record (rel_path : String) (content : String) : Option RevisionRecord :=
  let st := parse_revision_script content
  match st.revision_id with
  | some rid => if rid = "" then none else some ⟨rid, st.down_revision, rel_path⟩
  | none => none

/-- Does the char list end with the given suffix. -/
def endsWithCl (suffix s : List Char) : Bool :=
  suffix.reverse.isPrefixOf s.reverse

/-- python revisions_dir.rstrip of the slash character. -/
def rstripSlash (s : String) : String :=
  ⟨(s.data.reverse.dropWhile (fun c => c = '/')).reverse⟩

/-- get_revisions_in_branch with the git file listing injected as a list of
    (filename, content) pairs: keep direct children ending in .py that are not
    package-init files, parse each, and silently drop unparseable scripts. -/
def get_revisions_in_branch (revisions_dir : String)
    (files : List (String × String)) : List RevisionRecord :=
  let dir := rstripSlash revisions_dir
  let revision_files := files.filter
    (fun f => endsWithCl (".py".data) f.1.data && !(endsWithCl ("__init__.py".data) f.1.data))
  revision_files.filterMap (fun f => parsed_record (dir ++ "/" ++ f.1) f.2)

/-- Result of one alembic subprocess invocation, as seen by execute_migration:
    success, a CalledProcessError with captured stderr, a TimeoutExpired, or a
    missing venv executable (FileNotFoundError from get_venv_alembic). -/
inductive CmdResult where
  | ok : CmdResult
  | failed : String → CmdResult
  | timedOut : CmdResult
  | venvMissing : String → CmdResult
deriving Repr, DecidableEq

/-- The exception message run_alembic_command raises for a failing invocation,
    none when the command succeeded. -/
def stepError (res : CmdResult) (timeout : Nat) : Option String :=
  match res with
  | .ok => none
  | .failed stderr => some ("Alembic command failed: " ++ stderr)
  | .timedOut => some ("Alembic command timed out after " ++ toString timeout ++
      "s. Check database connection.")
  | .venvMissing repo => some ("Alembic not found in venv at " ++ repo ++
      ". Run \x27ms venv sync\x27 first to set up the virtual environment.")

/-- Result of execute_migration: the (success, error_message) pair plus the
    ordered list of alembic invocations actually attempted. -/
structure ExecOutcome where
  success : Bool
  error : String
  commands : List (List String)
deriving Repr, DecidableEq

/-- execute_migration from ms/alembic_ops.py with the alembic runner injected:
    run the downgrade first when downgrade_to is truthy, then the upgrade when
    requested; the first raised exception aborts and is returned as the error. -/
def execute_migration (runAlembic : List String → CmdResult)
    (downgrade_to : Option String) (upgrade : Bool) : ExecOutcome :=
  let downArgs : Option (List String) :=
    match downgrade_to with
    | some d => if d = "" then none else some ["downgrade", d]
    | none => none
  match downArgs with
  | some args =>
    match stepError (runAlembic args) 30 with
    | some e => ⟨false, e, [args]⟩
    | none =>
      if upgrade then
        match stepError (runAlembic ["upgrade", "head"]) 30 with
        | some e => ⟨false, e, [args, ["upgrade", "head"]]⟩
        | none => ⟨true, "", [args, ["upgrade", "head"]]⟩
      else ⟨true, "", [args]⟩
  | none =>
    if upgrade then
      match stepError (runAlembic ["upgrade", "head"]) 30 with
      | some e => ⟨false, e, [["upgrade", "head"]]⟩
      | none => ⟨true, "", [["upgrade", "head"]]⟩
    else ⟨true, "", []⟩

/-- Filtering with a pointwise stronger predicate keeps at most as many elements. -/
theorem length_filter_mono {α : Type} (l : List α) (p q : α → Bool)
    (h : ∀ a, p a = true → q a = true) :
    (l.filter p).length ≤ (l.filter q).length := by
  induction l with
  | nil => simp
  | cons a t ih =>
    by_cases hp : p a = true
    · rw [List.filter_cons, List.filter_cons, if_pos hp, if_pos (h a hp)]
      simpa using ih
    · rw [List.filter_cons, if_neg hp]
      by_cases hq : q a = true
      · rw [List.filter_cons, if_pos hq]
        exact Nat.le_succ_of_le ih
      · rw [List.filter_cons, if_neg hq]
        exact ih

/-- Marking a fresh id as visited strictly shrinks the walk measure. -/
theorem walkMeasure_cons_lt (revs : List RevisionRecord) (c : String) (visited : List String)
    (hc : c ∈ revIds revs) (hcv : ¬ c ∈ visited) :
    walkMeasure revs (c :: visited) < walkMeasure revs visited := by
  unfold walkMeasure
  have hshape : ((revIds revs).dedup).filter (fun i => decide (¬ i ∈ (c :: visited))) =
      (((revIds revs).dedup).filter (fun i => decide (¬ i ∈ visited))).filter
        (fun i => !(i == c)) := by
    rw [List.filter_filter]
    refine List.filter_congr ?_
    intro x _
    by_cases hxc : x = c
    · subst hxc
      simp [hcv]
    · by_cases hxv : x ∈ visited
      · simp [hxv, hxc]
      · simp [hxv, hxc]
  rw [hshape]
  refine List.length_filter_lt_length_iff_exists.mpr ⟨c, ?_, ?_⟩
  · exact List.mem_filter.mpr ⟨List.mem_dedup.mpr hc, by simpa using hcv⟩
  · simp

/-- What a successful rev_lookup returns: a member record carrying the id. -/
theorem rev_lookup_eq_some (revs : List RevisionRecord) (c : String) (r : RevisionRecord)
    (h : rev_lookup revs c = some r) : r ∈ revs ∧ r.id = c := by
  unfold rev_lookup at h
  have h1 := List.find?_some h
  have h2 := List.mem_of_find?_eq_some h
  exact ⟨List.mem_reverse.mp h2, by simpa using h1⟩

/-- A looked-up id is among the record ids. -/
theorem rev_lookup_mem_ids (revs : List RevisionRecord) (c : String) (r : RevisionRecord)
    (hl : rev_lookup revs c = some r) : c ∈ revIds revs := by
  obtain ⟨hm, hid⟩ := rev_lookup_eq_some revs c r hl
  show c ∈ revs.map (fun r => r.id)
  rw [← hid]
  exact List.mem_map_of_mem _ hm

/-- Looking up the id of a member record succeeds with a record of that id. -/
theorem rev_lookup_isSome (revs : List RevisionRecord) (r : RevisionRecord) (hr : r ∈ revs) :
    ∃ q, rev_lookup revs r.id = some q ∧ q.id = r.id := by
  unfold rev_lookup
  cases h : List.find? (fun x => x.id == r.id) revs.reverse with
  | none =>
    exfalso
    have := List.find?_eq_none.mp h r (List.mem_reverse.mpr hr)
    simp at this
  | some q =>
    have hq := List.find?_some h
    exact ⟨q, rfl, by simpa using hq⟩

/-- With duplicate-free ids, looking up the id of a member returns that member. -/
theorem rev_lookup_nodup (revs : List RevisionRecord) (hn : (revIds revs).Nodup)
    (r : RevisionRecord) (hr : r ∈ revs) : rev_lookup revs r.id = some r := by
  obtain ⟨q, hq, hqid⟩ := rev_lookup_isSome revs r hr
  have hqmem := (rev_lookup_eq_some revs r.id q hq).1
  have hinj : q = r := List.inj_on_of_nodup_map hn hqmem hr hqid
  rw [hq, hinj]

/-- Walking from a null current revision returns the chain unchanged. -/
theorem chainWalk_none (revs : List RevisionRecord) (fuel : Nat) (visited chain : List String) :
    chainWalk revs fuel none visited chain = chain := by
  cases fuel <;> rfl

/-- Walking with zero fuel returns the chain unchanged. -/
theorem chainWalk_zero (revs : List RevisionRecord) (cur : Option String)
    (visited chain : List String) :
    chainWalk revs 0 cur visited chain = chain := by
  cases cur <;> rfl

/-- One-step unfolding of the walk at positive fuel. -/
theorem chainWalk_succ (revs : List RevisionRecord) (f : Nat) (c : String)
    (visited chain : List String) :
    chainWalk revs (f + 1) (some c) visited chain =
      if c = "" then chain
      else
        match rev_lookup revs c with
        | none => chain
        | some r =>
          if c ∈ visited then chain
          else chainWalk revs f r.down_revision (c :: visited) (c :: chain) := rfl

/-- The walk stops on a falsy id, a missing record or a revisited id. -/
theorem chainWalk_succ_stop (revs : List RevisionRecord) (f : Nat) (c : String)
    (visited chain : List String)
    (h : c = "" ∨ rev_lookup revs c = none ∨ c ∈ visited) :
    chainWalk revs (f + 1) (some c) visited chain = chain := by
  rw [chainWalk_succ]
  by_cases hc : c = ""
  · rw [if_pos hc]
  · rw [if_neg hc]
    split
    · rfl
    · next r heq =>
      have hv : c ∈ visited := by
        rcases h with h | h | h
        · exact absurd h hc
        · rw [heq] at h; cases h
        · exact h
      rw [if_pos hv]

/-- The walk takes a step on a truthy unvisited id with a record. -/
theorem chainWalk_succ_go (revs : List RevisionRecord) (f : Nat) (c : String)
    (visited chain : List String) (r : RevisionRecord)
    (hc : ¬ c = "") (hl : rev_lookup revs c = some r) (hv : ¬ c ∈ visited) :
    chainWalk revs (f + 1) (some c) visited chain =
      chainWalk revs f r.down_revision (c :: visited) (c :: chain) := by
  rw [chainWalk_succ, if_neg hc]
  split
  · next heq => rw [hl] at heq; cases heq
  · next r2 heq =>
    rw [hl] at heq
    cases heq
    rw [if_neg hv]

/-- When every id is already visited, any id with a record is in visited. -/
theorem mem_visited_of_measure_zero (revs : List RevisionRecord) (visited : List String)
    (h : walkMeasure revs visited = 0) (c : String) (hcid : c ∈ revIds revs) :
    c ∈ visited := by
  unfold walkMeasure at h
  have hnil := List.length_eq_zero.mp h
  have := List.filter_eq_nil_iff.mp hnil c (List.mem_dedup.mpr hcid)
  simpa using this

/-- With exhausted measure the walk stops at once, whatever the fuel. -/
theorem chainWalk_measure_zero (revs : List RevisionRecord) (fuel : Nat) (cur : Option String)
    (visited chain : List String) (h : walkMeasure revs visited = 0) :
    chainWalk revs fuel cur visited chain = chain := by
  cases cur with
  | none => exact chainWalk_none revs fuel visited chain
  | some c =>
    cases fuel with
    | zero => exact chainWalk_zero revs (some c) visited chain
    | succ f =>
      refine chainWalk_succ_stop revs f c visited chain ?_
      by_cases hc : c = ""
      · exact Or.inl hc
      · cases hl : rev_lookup revs c with
        | none => exact Or.inr (Or.inl rfl)
        | some r =>
          exact Or.inr (Or.inr (mem_visited_of_measure_zero revs visited h c
            (rev_lookup_mem_ids revs c r hl)))

/-- Given enough fuel for the remaining distinct ids, the walk result does not
    depend on the exact fuel: the loop always reaches one of its own stopping
    conditions, so the fuel embedding is faithful to the unbounded python loop. -/
theorem chainWalk_fuel_irrel (revs : List RevisionRecord) (fuel₁ : Nat) :
    ∀ (fuel₂ : Nat) (cur : Option String) (visited chain : List String),
    walkMeasure revs visited ≤ fuel₁ → walkMeasure revs visited ≤ fuel₂ →
    chainWalk revs fuel₁ cur visited chain = chainWalk revs fuel₂ cur visited chain := by
  induction fuel₁ with
  | zero =>
    intro fuel₂ cur visited chain h₁ h₂
    have hm : walkMeasure revs visited = 0 := Nat.le_zero.mp h₁
    rw [chainWalk_measure_zero revs 0 cur visited chain hm,
      chainWalk_measure_zero revs fuel₂ cur visited chain hm]
  | succ f ih =>
    intro fuel₂ cur visited chain h₁ h₂
    cases cur with
    | none => rw [chainWalk_none, chainWalk_none]
    | some c =>
      by_cases hc : c = ""
      · rw [chainWalk_succ_stop revs f c visited chain (Or.inl hc)]
        cases fuel₂ with
        | zero => rw [chainWalk_zero]
        | succ f₂ => rw [chainWalk_succ_stop revs f₂ c visited chain (Or.inl hc)]
      · cases hl : rev_lookup revs c with
        | none =>
          rw [chainWalk_succ_stop revs f c visited chain (Or.inr (Or.inl hl))]
          cases fuel₂ with
          | zero => rw [chainWalk_zero]
          | succ f₂ => rw [chainWalk_succ_stop revs f₂ c visited chain (Or.inr (Or.inl hl))]
        | some r =>
          by_cases hv : c ∈ visited
          · rw [chainWalk_succ_stop revs f c visited chain (Or.inr (Or.inr hv))]
            cases fuel₂ with
            | zero => rw [chainWalk_zero]
            | succ f₂ => rw [chainWalk_succ_stop revs f₂ c visited chain (Or.inr (Or.inr hv))]
          · have hlt := walkMeasure_cons_lt revs c visited
              (rev_lookup_mem_ids revs c r hl) hv
            have hmpos : 1 ≤ walkMeasure revs visited := Nat.one_le_iff_ne_zero.mpr (by
              intro h0
              exact hv (mem_visited_of_measure_zero revs visited h0 c
                (rev_lookup_mem_ids revs c r hl)))
            cases fuel₂ with
            | zero => exact absurd (Nat.le_trans hmpos h₂) (by simp)
            | succ f₂ =>
              rw [chainWalk_succ_go revs f c visited chain r hc hl hv,
                chainWalk_succ_go revs f₂ c visited chain r hc hl hv]
              exact ih f₂ r.down_revision (c :: visited) (c :: chain)
                (Nat.le_of_lt_succ (Nat.lt_of_lt_of_le hlt h₁))
                (Nat.le_of_lt_succ (Nat.lt_of_lt_of_le hlt h₂))

/-- A stopping configuration of the backward walk: no current id, a falsy id,
    an id with no record, or an id already visited. -/
def stopNow (revs : List RevisionRecord) (cur : Option String) (vis : List String) : Prop :=
  cur = none ∨ ∃ c, cur = some c ∧ (c = "" ∨ rev_lookup revs c = none ∨ c ∈ vis)

/-- Master invariant of the backward walk: the result extends the accumulator
    with a duplicate-free block of fresh, truthy, known ids, the block is no
    longer than the remaining measure, and the deepest visited id (the head of
    the block) stopped for one of the loop reasons. -/
theorem chainWalk_master (revs : List RevisionRecord) (fuel : Nat) :
    ∀ (cur : Option String) (visited acc : List String),
    walkMeasure revs visited ≤ fuel →
    ∃ fresh : List String,
      chainWalk revs fuel cur visited acc = fresh ++ acc ∧
      fresh.Nodup ∧
      (∀ x ∈ fresh, ¬ x ∈ visited ∧ ¬ x = "" ∧ ∃ r ∈ revs, r.id = x) ∧
      fresh.length ≤ walkMeasure revs visited ∧
      (fresh = [] → stopNow revs cur visited) ∧
      (∀ c f2, fresh = c :: f2 →
        ∃ r, rev_lookup revs c = some r ∧
          stopNow revs r.down_revision (fresh ++ visited)) := by
  induction fuel with
  | zero =>
    intro cur visited acc h
    have hm : walkMeasure revs visited = 0 := Nat.le_zero.mp h
    refine ⟨[], by rw [chainWalk_measure_zero revs 0 cur visited acc hm]; rfl,
      List.nodup_nil, by simp, by simp, ?_, by simp⟩
    intro _
    cases cur with
    | none => exact Or.inl rfl
    | some c =>
      refine Or.inr ⟨c, rfl, ?_⟩
      by_cases hc : c = ""
      · exact Or.inl hc
      · cases hl : rev_lookup revs c with
        | none => exact Or.inr (Or.inl rfl)
        | some r =>
          exact Or.inr (Or.inr (mem_visited_of_measure_zero revs visited hm c
            (rev_lookup_mem_ids revs c r hl)))
  | succ f ih =>
    intro cur visited acc h
    cases cur with
    | none =>
      exact ⟨[], by rw [chainWalk_none]; rfl, List.nodup_nil, by simp, by simp,
        fun _ => Or.inl rfl, by simp⟩
    | some c =>
      by_cases hc : c = ""
      · exact ⟨[], by rw [chainWalk_succ_stop revs f c visited acc (Or.inl hc)]; rfl,
          List.nodup_nil, by simp, by simp, fun _ => Or.inr ⟨c, rfl, Or.inl hc⟩, by simp⟩
      · cases hl : rev_lookup revs c with
        | none =>
          exact ⟨[], by rw [chainWalk_succ_stop revs f c visited acc (Or.inr (Or.inl hl))]; rfl,
            List.nodup_nil, by simp, by simp, fun _ => Or.inr ⟨c, rfl, Or.inr (Or.inl hl)⟩,
            by simp⟩
        | some r =>
          by_cases hv : c ∈ visited
          · exact ⟨[], by rw [chainWalk_succ_stop revs f c visited acc (Or.inr (Or.inr hv))]; rfl,
              List.nodup_nil, by simp, by simp, fun _ => Or.inr ⟨c, rfl, Or.inr (Or.inr hv)⟩,
              by simp⟩
          · have hcid := rev_lookup_mem_ids revs c r hl
            have hlt := walkMeasure_cons_lt revs c visited hcid hv
            obtain ⟨fresh, he, hnd, hprops, hlen, hstop0, hstop1⟩ :=
              ih r.down_revision (c :: visited) (c :: acc)
                (Nat.le_of_lt_succ (Nat.lt_of_lt_of_le hlt h))
            refine ⟨fresh ++ [c], ?_, ?_, ?_, ?_, ?_, ?_⟩
            · rw [chainWalk_succ_go revs f c visited acc r hc hl hv, he,
                List.append_assoc]
              rfl
            · rw [List.nodup_append]
              refine ⟨hnd, List.nodup_singleton c, ?_⟩
              intro x hx hxc
              have := (hprops x hx).1
              rw [List.mem_singleton.mp hxc] at this
              exact this (List.mem_cons_self c visited)
            · intro x hx
              rcases List.mem_append.mp hx with hx | hx
              · obtain ⟨h1, h2, h3⟩ := hprops x hx
                exact ⟨fun hmem => h1 (List.mem_cons_of_mem c hmem), h2, h3⟩
              · rw [List.mem_singleton.mp hx]
                exact ⟨hv, hc, r, (rev_lookup_eq_some revs c r hl).1,
                  (rev_lookup_eq_some revs c r hl).2⟩
            · rw [List.length_append, List.length_singleton]
              exact Nat.succ_le_of_lt (Nat.lt_of_le_of_lt hlen hlt)
            · intro habs
              exact absurd habs (by simp)
            · intro c0 f2 hshape
              cases fresh with
              | nil =>
                rw [List.nil_append] at hshape
                cases hshape
                refine ⟨r, hl, ?_⟩
                have := hstop0 rfl
                simpa using this
              | cons c1 f1 =>
                obtain ⟨r1, hr1, hstop⟩ := hstop1 c1 f1 rfl
                have hshape2 : c1 :: (f1 ++ [c]) = c0 :: f2 := by simpa using hshape
                injection hshape2 with h1 h2
                subst h1
                refine ⟨r1, hr1, ?_⟩
                have hlists : (c1 :: f1) ++ (c :: visited) = ((c1 :: f1) ++ [c]) ++ visited := by
                  simp
                rw [hlists] at hstop
                exact hstop

/-- With nothing visited the measure is the number of distinct ids. -/
theorem walkMeasure_nil (revs : List RevisionRecord) :
    walkMeasure revs [] = ((revIds revs).dedup).length := by
  unfold walkMeasure
  congr 1
  refine List.filter_eq_self.mpr ?_
  intro a _
  simp

/-- build_revision_chain is a walk from some starting id over the full fuel. -/
theorem build_eq_walk (revisions : List RevisionRecord) :
    ∃ headOpt : Option String,
      build_revision_chain revisions =
        chainWalk revisions (((revIds revisions).dedup).length) headOpt [] [] := by
  cases revisions with
  | nil => exact ⟨none, by rw [chainWalk_none]; rfl⟩
  | cons r0 rest => exact ⟨_, rfl⟩

/-- The chain never repeats an id. -/
theorem build_chain_nodup (revisions : List RevisionRecord) :
    (build_revision_chain revisions).Nodup := by
  obtain ⟨headOpt, he⟩ := build_eq_walk revisions
  obtain ⟨fresh, hw, hnd, _, _, _, _⟩ :=
    chainWalk_master revisions (((revIds revisions).dedup).length) headOpt [] []
      (by rw [walkMeasure_nil])
  rw [he, hw, List.append_nil]
  exact hnd

/-- The chain is no longer than the number of distinct ids. -/
theorem build_chain_length_le (revisions : List RevisionRecord) :
    (build_revision_chain revisions).length ≤ ((revIds revisions).dedup).length := by
  obtain ⟨headOpt, he⟩ := build_eq_walk revisions
  obtain ⟨fresh, hw, _, _, hlen, _, _⟩ :=
    chainWalk_master revisions (((revIds revisions).dedup).length) headOpt [] []
      (by rw [walkMeasure_nil])
  rw [he, hw, List.append_nil]
  rw [walkMeasure_nil] at hlen
  exact hlen

/-- Every chain element is truthy and is the id of some record. -/
theorem build_chain_mem (revisions : List RevisionRecord) (x : String)
    (hx : x ∈ build_revision_chain revisions) :
    ¬ x = "" ∧ ∃ r ∈ revisions, r.id = x := by
  obtain ⟨headOpt, he⟩ := build_eq_walk revisions
  obtain ⟨fresh, hw, _, hprops, _, _, _⟩ :=
    chainWalk_master revisions (((revIds revisions).dedup).length) headOpt [] []
      (by rw [walkMeasure_nil])
  rw [he, hw, List.append_nil] at hx
  obtain ⟨_, h2, h3⟩ := hprops x hx
  exact ⟨h2, h3⟩

/-- The first chain element has a record whose down-revision is null, falsy,
    dangling (no record carries it) or a back-reference into the chain itself:
    exactly the stopping conditions of the backward walk. -/
theorem build_chain_head_stop (revisions : List RevisionRecord) (c : String)
    (rest : List String) (h : build_revision_chain revisions = c :: rest) :
    ∃ r, rev_lookup revisions c = some r ∧
      (r.down_revision = none ∨
        ∃ d, r.down_revision = some d ∧
          (d = "" ∨ rev_lookup revisions d = none ∨ d ∈ c :: rest)) := by
  obtain ⟨headOpt, he⟩ := build_eq_walk revisions
  obtain ⟨fresh, hw, _, _, _, _, hstop1⟩ :=
    chainWalk_master revisions (((revIds revisions).dedup).length) headOpt [] []
      (by rw [walkMeasure_nil])
  rw [he, hw, List.append_nil] at h
  obtain ⟨r, hr, hstop⟩ := hstop1 c rest h
  refine ⟨r, hr, ?_⟩
  rw [h, List.append_nil] at hstop
  rcases hstop with hstop | ⟨d, hd, hcase⟩
  · exact Or.inl hstop
  · exact Or.inr ⟨d, hd, hcase⟩

/-- C6: build_revision_chain always terminates — the walk reaches one of its
    own stopping conditions within the fuel, so giving it any additional fuel
    changes nothing — and the resulting chain has no repeated id and is no
    longer than the number of distinct record ids, cycles included. -/
theorem C6_chain_terminates_nodup_bounded (revisions : List RevisionRecord) :
    (build_revision_chain revisions).Nodup ∧
    (build_revision_chain revisions).length ≤ ((revIds revisions).dedup).length ∧
    (∀ extra : Nat,
      build_revision_chain_fuel (((revIds revisions).dedup).length + extra) revisions =
        build_revision_chain revisions) := by
  refine ⟨build_chain_nodup revisions, build_chain_length_le revisions, ?_⟩
  intro extra
  show build_revision_chain_fuel _ revisions = build_revision_chain_fuel _ revisions
  cases revisions with
  | nil => rfl
  | cons r0 rest =>
    unfold build_revision_chain_fuel
    exact chainWalk_fuel_irrel (r0 :: rest) _ _ _ [] []
      (by rw [walkMeasure_nil]; exact Nat.le_add_right _ _)
      (by rw [walkMeasure_nil])

/-- C10: the walk dereferences only ids present in the record lookup — every
    chain element is the id of a parsed record — and the first element of a
    returned chain stopped the backward walk for one of the loop reasons: a
    null down-revision, a falsy one, one naming no record (the dangling case,
    where the truncated chain is returned and the first element keeps its
    non-null down-revision), or one already in the chain. -/
theorem C10_guarded_walk_truncation (revisions : List RevisionRecord) :
    (∀ x ∈ build_revision_chain revisions, ∃ r ∈ revisions, r.id = x) ∧
    (∀ c rest, build_revision_chain revisions = c :: rest →
      ∃ r, rev_lookup revisions c = some r ∧
        (r.down_revision = none ∨
          ∃ d, r.down_revision = some d ∧
            (d = "" ∨ rev_lookup revisions d = none ∨ d ∈ c :: rest))) := by
  constructor
  · intro x hx
    exact (build_chain_mem revisions x hx).2
  · intro c rest h
    exact build_chain_head_stop revisions c rest h

/-- C10 witness: a single record whose down-revision names a missing id; the
    truncated one-element chain is returned and its record keeps the dangling
    non-null down-revision. -/
theorem C10_witness :
    build_revision_chain [⟨"bbb222bbb222", some ("aaa111aaa111"), "v/b.py"⟩] =
      ["bbb222bbb222"] ∧
    ∃ r, rev_lookup [⟨"bbb222bbb222", some ("aaa111aaa111"), "v/b.py"⟩] "bbb222bbb222" =
        some r ∧
      (r.down_revision = none ∨
        ∃ d, r.down_revision = some d ∧
          (d = "" ∨
            rev_lookup [⟨"bbb222bbb222", some ("aaa111aaa111"), "v/b.py"⟩] d = none ∨
            d ∈ ["bbb222bbb222"])) := by
  refine ⟨by decide, ?_⟩
  exact (C10_guarded_walk_truncation [⟨"bbb222bbb222", some ("aaa111aaa111"), "v/b.py"⟩]).2
    "bbb222bbb222" [] (by decide)

/-- C9: with zero parseable revision records on both branches,
    get_migration_plan returns None (no migration needed) for every truthy
    current db revision, whatever the branch-search collaborator would answer:
    no ghost check runs and no error is produced. -/
theorem C9_both_empty_no_migration (db : String) (hdb : db ≠ "")
    (bs : String → List String) :
    get_migration_plan (some db) [] [] bs = PlanOutcome.noMigration := by
  show (if db = "" then _ else if ([] : List RevisionRecord) = [] ∧
    ([] : List RevisionRecord) = [] then PlanOutcome.noMigration else _) = _
  rw [if_neg hdb, if_pos ⟨rfl, rfl⟩]

/-- C9 witness: a concrete truthy revision id with both branches empty. -/
theorem C9_witness :
    get_migration_plan (some ("feedc0ffee12")) [] [] (fun _ => []) = PlanOutcome.noMigration :=
  C9_both_empty_no_migration ("feedc0ffee12") (by decide) (fun _ => [])

/-- C1 counterexample: with both record sets empty and a current db revision
    that is the id of no record in either set, get_migration_plan returns
    None, not a structured PlanError. -/
theorem C1_counterexample_empty_sets :
    (get_migration_plan (some ("abc123def456")) [] [] (fun _ => [])).isError = false ∧
    get_migration_plan (some ("abc123def456")) [] [] (fun _ => []) =
      PlanOutcome.noMigration := by
  constructor
  · rfl
  · rfl

/-- C1 amended: when the record sets are not both empty and the truthy current
    db revision is the id of no record in either set, get_migration_plan
    returns the structured PlanError whose missing_revision is that id and
    whose found_in_branches is exactly the branch-search result (empty when no
    other branch defines the revision). -/
theorem C1_amended_missing_revision_error
    (current_revisions target_revisions : List RevisionRecord)
    (bs : String → List String) (db : String)
    (hdb : db ≠ "")
    (hne : ¬ (current_revisions = [] ∧ target_revisions = []))
    (h1 : ¬ db ∈ revIds current_revisions) (h2 : ¬ db ∈ revIds target_revisions) :
    get_migration_plan (some db) current_revisions target_revisions bs =
      PlanOutcome.planError ⟨"Database is at revision " ++ db ++
        ", which is missing from both current and target branches. Cannot calculate migration path.",
        some db, some (bs db)⟩ := by
  simp only [get_migration_plan]
  rw [if_neg hdb, if_neg hne, if_neg h1, if_neg h2]

/-- C1 witness: one source record, no target records, a foreign db revision
    and a branch scan that finds it elsewhere. -/
theorem C1_witness :
    get_migration_plan (some ("zz99zz99zz99")) [⟨"a1a1a1a1a1a1", none, "v/a.py"⟩] []
        (fun _ => ["feature-x"]) =
      PlanOutcome.planError ⟨"Database is at revision zz99zz99zz99" ++
        ", which is missing from both current and target branches. Cannot calculate migration path.",
        some ("zz99zz99zz99"), some (["feature-x"])⟩ := by
  have h := C1_amended_missing_revision_error [⟨"a1a1a1a1a1a1", none, "v/a.py"⟩] []
    (fun _ => ["feature-x"]) ("zz99zz99zz99") (by decide) (by simp) (by decide) (by decide)
  simpa using h

/-- Appending to a non-empty string keeps it non-empty. -/
theorem append_left_ne_empty (a b : String) (ha : a ≠ "") : a ++ b ≠ "" := by
  intro h
  apply ha
  have hl := congrArg String.length h
  rw [String.length_append] at hl
  have h0 : a.length = 0 := by
    have : a.length + b.length = 0 := hl
    omega
  cases a with
  | mk data =>
    cases data with
    | nil => rfl
    | cons c cs => simp [String.length] at h0

/-- Every error message raised out of a failing alembic step is non-empty. -/
theorem stepError_ne_empty (res : CmdResult) (t : Nat) (e : String)
    (h : stepError res t = some e) : e ≠ "" := by
  cases res with
  | ok => simp [stepError] at h
  | failed stderr =>
    simp only [stepError, Option.some.injEq] at h
    rw [← h]
    exact append_left_ne_empty _ _ (by decide)
  | timedOut =>
    simp only [stepError, Option.some.injEq] at h
    rw [← h]
    exact append_left_ne_empty _ _ (append_left_ne_empty _ _ (by decide))
  | venvMissing repo =>
    simp only [stepError, Option.some.injEq] at h
    rw [← h]
    exact append_left_ne_empty _ _ (append_left_ne_empty _ _ (by decide))

/-- C8: invoked with both a truthy downgrade target and the upgrade directive,
    execute_migration attempts the downgrade strictly before the upgrade (the
    invocation trace is the downgrade alone, or the downgrade followed by the
    upgrade), and when the downgrade invocation does not succeed the upgrade is
    never attempted and the call returns success = false with a non-empty
    error message. -/
theorem C8_downgrade_strictly_first (runAlembic : List String → CmdResult) (d : String)
    (hd : ¬ d = "") :
    ((execute_migration runAlembic (some d) true).commands = [["downgrade", d]] ∨
      (execute_migration runAlembic (some d) true).commands =
        [["downgrade", d], ["upgrade", "head"]]) ∧
    (¬ runAlembic ["downgrade", d] = CmdResult.ok →
      (execute_migration runAlembic (some d) true).commands = [["downgrade", d]] ∧
      (execute_migration runAlembic (some d) true).success = false ∧
      ¬ (execute_migration runAlembic (some d) true).error = "") := by
  have hexec : execute_migration runAlembic (some d) true =
      match stepError (runAlembic ["downgrade", d]) 30 with
      | some e => ⟨false, e, [["downgrade", d]]⟩
      | none =>
        match stepError (runAlembic ["upgrade", "head"]) 30 with
        | some e => ⟨false, e, [["downgrade", d], ["upgrade", "head"]]⟩
        | none => ⟨true, "", [["downgrade", d], ["upgrade", "head"]]⟩ := by
    show (match (if d = "" then none else some [("downgrade" : String), d]) with
      | some args =>
        match stepError (runAlembic args) 30 with
        | some e => (⟨false, e, [args]⟩ : ExecOutcome)
        | none =>
          if true = true then
            match stepError (runAlembic ["upgrade", "head"]) 30 with
            | some e => ⟨false, e, [args, ["upgrade", "head"]]⟩
            | none => ⟨true, "", [args, ["upgrade", "head"]]⟩
          else ⟨true, "", [args]⟩
      | none => _) = _
    rw [if_neg hd]
    rfl
  cases hres : runAlembic ["downgrade", d] with
  | ok =>
    rw [hexec, hres]
    constructor
    · cases hup : stepError (runAlembic ["upgrade", "head"]) 30 with
      | none => exact Or.inr rfl
      | some e => exact Or.inr rfl
    · exact fun habs => absurd rfl habs
  | failed stderr =>
    rw [hexec, hres]
    exact ⟨Or.inl rfl, fun _ => ⟨rfl, rfl,
      stepError_ne_empty (CmdResult.failed stderr) 30 _ rfl⟩⟩
  | timedOut =>
    rw [hexec, hres]
    exact ⟨Or.inl rfl, fun _ => ⟨rfl, rfl,
      stepError_ne_empty CmdResult.timedOut 30 _ rfl⟩⟩
  | venvMissing repo =>
    rw [hexec, hres]
    exact ⟨Or.inl rfl, fun _ => ⟨rfl, rfl,
      stepError_ne_empty (CmdResult.venvMissing repo) 30 _ rfl⟩⟩

/-- C8 witness: a runner whose downgrade invocation fails; the upgrade is
    never attempted and a non-empty error is returned. -/
theorem C8_witness :
    (execute_migration
        (fun args => if args = [("downgrade" : String), "abc123def456"]
          then CmdResult.failed ("boom") else CmdResult.ok)
        (some ("abc123def456")) true).commands = [["downgrade", "abc123def456"]] ∧
    (execute_migration
        (fun args => if args = [("downgrade" : String), "abc123def456"]
          then CmdResult.failed ("boom") else CmdResult.ok)
        (some ("abc123def456")) true).success = false ∧
    ¬ (execute_migration
        (fun args => if args = [("downgrade" : String), "abc123def456"]
          then CmdResult.failed ("boom") else CmdResult.ok)
        (some ("abc123def456")) true).error = "" :=
  (C8_downgrade_strictly_first
    (fun args => if args = [("downgrade" : String), "abc123def456"]
      then CmdResult.failed ("boom") else CmdResult.ok)
    ("abc123def456") (by decide)).2 (by decide)

/-- C7: a plain single-quoted assignment and a type-annotated double-quoted
    assignment parse to identical RevisionRecords — same id, and the same
    equivalence holds for down_revision, with the literal None mapping to
    null. -/
theorem C7_assignment_syntax_equivalence :
    get_revisions_in_branch ("versions")
        [(("r1.py"), "revision = \x27abc123def456\x27\ndown_revision = \x27aaa111bbb222\x27\n")] =
      [⟨"abc123def456", some ("aaa111bbb222"), "versions/r1.py"⟩] ∧
    get_revisions_in_branch ("versions")
        [(("r1.py"), "revision: str = \"abc123def456\"\ndown_revision: str = \"aaa111bbb222\"\n")] =
      [⟨"abc123def456", some ("aaa111bbb222"), "versions/r1.py"⟩] ∧
    get_revisions_in_branch ("versions")
        [(("r2.py"), "revision = \x27abc123def456\x27\ndown_revision = None\n")] =
      [⟨"abc123def456", none, "versions/r2.py"⟩] ∧
    get_revisions_in_branch ("versions")
        [(("r2.py"), "revision: str = \"abc123def456\"\ndown_revision: str = None\n")] =
      [⟨"abc123def456", none, "versions/r2.py"⟩] := by
  refine ⟨?_, ?_, ?_, ?_⟩ <;> decide

/-- The last element of a list, when some, is a member. -/
theorem mem_of_getLast_eq_some {α : Type} {l : List α} {a : α}
    (h : l.getLast? = some a) : a ∈ l := by
  cases l with
  | nil => cases h
  | cons x xs =>
    have hne : x :: xs ≠ [] := by simp
    rw [List.getLast?_eq_getLast _ hne] at h
    cases h
    exact List.getLast_mem hne

/-- The scan of find_common_revision computes the last element of the source
    chain that lies in the target chain, or keeps the accumulator. -/
theorem foldl_lastMatch (tc : List String) (L : List String) (acc : Option String) :
    L.foldl (fun common c => if c ∈ tc then some c else common) acc =
      match (L.filter (fun c => decide (c ∈ tc))).getLast? with
      | some y => some y
      | none => acc := by
  induction L using List.reverseRecOn generalizing acc with
  | nil => rfl
  | append_singleton L a ih =>
    rw [List.foldl_append, List.filter_append]
    by_cases ha : a ∈ tc
    · have h1 : List.foldl (fun common c => if c ∈ tc then some c else common)
          (List.foldl (fun common c => if c ∈ tc then some c else common) acc L) [a] =
          some a := by
        simp [ha]
      rw [h1]
      have h2 : List.filter (fun c => decide (c ∈ tc)) [a] = [a] := by simp [ha]
      rw [h2, List.getLast?_append]
      rfl
    · have h1 : List.foldl (fun common c => if c ∈ tc then some c else common)
          (List.foldl (fun common c => if c ∈ tc then some c else common) acc L) [a] =
          List.foldl (fun common c => if c ∈ tc then some c else common) acc L := by
        simp [ha]
      rw [h1]
      have h2 : List.filter (fun c => decide (c ∈ tc)) [a] = [] := by simp [ha]
      rw [h2, List.append_nil]
      exact ih acc

/-- The last match of the scan sits at the highest index whose element lies in
    the target chain. -/
theorem getLast_filter_max (tc : List String) (L : List String) (r : String)
    (h : (L.filter (fun c => decide (c ∈ tc))).getLast? = some r) :
    ∃ i, L.get? i = some r ∧ r ∈ tc ∧
      ∀ j x, L.get? j = some x → x ∈ tc → j ≤ i := by
  induction L using List.reverseRecOn with
  | nil => cases h
  | append_singleton L a ih =>
    rw [List.filter_append] at h
    by_cases ha : a ∈ tc
    · have h2 : List.filter (fun c => decide (c ∈ tc)) [a] = [a] := by simp [ha]
      rw [h2, List.getLast?_append] at h
      have har : a = r := by
        have : some a = some r := h
        cases this
        rfl
      subst har
      refine ⟨L.length, List.get?_concat_length L a, ha, ?_⟩
      intro j x hj _
      by_cases hjl : j < L.length + 1
      · omega
      · exfalso
        rw [List.get?_len_le (by simpa using Nat.le_of_not_lt hjl)] at hj
        cases hj
    · have h2 : List.filter (fun c => decide (c ∈ tc)) [a] = [] := by simp [ha]
      rw [h2, List.append_nil] at h
      obtain ⟨i, hi, hrtc, hmax⟩ := ih h
      have hilt : i < L.length := (List.get?_eq_some.mp hi).1
      refine ⟨i, by rw [List.get?_append hilt]; exact hi, hrtc, ?_⟩
      intro j x hj hx
      by_cases hjl : j < L.length
      · refine hmax j x ?_ hx
        rw [List.get?_append hjl] at hj
        exact hj
      · rcases Nat.lt_or_ge j (L.length + 1) with hj1 | hj1
        · have hje : j = L.length := by omega
          subst hje
          rw [List.get?_concat_length] at hj
          cases hj
          exact absurd hx ha
        · exfalso
          rw [List.get?_len_le (by simpa using hj1)] at hj
          cases hj

/-- C5: find_common_revision returns the id at the highest index of the source
    chain that also occurs anywhere in the target chain, and null exactly when
    the two chains share no id. -/
theorem C5_common_revision_last_shared
    (current_revisions target_revisions : List RevisionRecord) :
    (find_common_revision current_revisions target_revisions = none ↔
      ∀ x ∈ build_revision_chain current_revisions,
        ¬ x ∈ build_revision_chain target_revisions) ∧
    (∀ r, find_common_revision current_revisions target_revisions = some r →
      ∃ i, (build_revision_chain current_revisions).get? i = some r ∧
        r ∈ build_revision_chain target_revisions ∧
        ∀ j x, (build_revision_chain current_revisions).get? j = some x →
          x ∈ build_revision_chain target_revisions → j ≤ i) := by
  have hfc : find_common_revision current_revisions target_revisions =
      match ((build_revision_chain current_revisions).filter
        (fun c => decide (c ∈ build_revision_chain target_revisions))).getLast? with
      | some y => some y
      | none => none :=
    foldl_lastMatch (build_revision_chain target_revisions)
      (build_revision_chain current_revisions) none
  constructor
  · rw [hfc]
    cases hlast : ((build_revision_chain current_revisions).filter
        (fun c => decide (c ∈ build_revision_chain target_revisions))).getLast? with
    | none =>
      have hnil := List.getLast?_eq_none.mp hlast
      constructor
      · intro _ x hx hmem
        have hxf := List.filter_eq_nil_iff.mp hnil x hx
        simp only [decide_eq_true_eq] at hxf
        exact hxf hmem
      · intro _
        rfl
    | some y =>
      constructor
      · intro h
        cases h
      · intro hall
        exfalso
        have hy := mem_of_getLast_eq_some hlast
        have := List.mem_filter.mp hy
        exact hall y this.1 (by simpa using this.2)
  · intro r hr
    rw [hfc] at hr
    cases hlast : ((build_revision_chain current_revisions).filter
        (fun c => decide (c ∈ build_revision_chain target_revisions))).getLast? with
    | none =>
      rw [hlast] at hr
      cases hr
    | some y =>
      rw [hlast] at hr
      cases hr
      exact getLast_filter_max (build_revision_chain target_revisions)
        (build_revision_chain current_revisions) _ hlast

/-- Shared concrete records for witnesses: a linear source a1 <- b2 <- c3 and a
    diverged target a1 <- b2 <- d4. -/
def exRecA : RevisionRecord := ⟨"a1a1a1a1a1a1", none, "v/a.py"⟩

def exRecB : RevisionRecord := ⟨"b2b2b2b2b2b2", some ("a1a1a1a1a1a1"), "v/b.py"⟩

def exRecC : RevisionRecord := ⟨"c3c3c3c3c3c3", some ("b2b2b2b2b2b2"), "v/c.py"⟩

def exRecD : RevisionRecord := ⟨"d4d4d4d4d4d4", some ("b2b2b2b2b2b2"), "v/d.py"⟩

/-- C5 witness: on the diverged pair the common revision b2 sits at index 1 of
    the source chain and no later source-chain id lies in the target chain. -/
theorem C5_witness :
    ∃ i, (build_revision_chain [exRecA, exRecB, exRecC]).get? i = some ("b2b2b2b2b2b2") ∧
      "b2b2b2b2b2b2" ∈ build_revision_chain [exRecA, exRecB, exRecD] ∧
      ∀ j x, (build_revision_chain [exRecA, exRecB, exRecC]).get? j = some x →
        x ∈ build_revision_chain [exRecA, exRecB, exRecD] → j ≤ i :=
  (C5_common_revision_last_shared [exRecA, exRecB, exRecC] [exRecA, exRecB, exRecD]).2
    ("b2b2b2b2b2b2") (by decide)

/-- Chain membership gives membership among the record ids. -/
theorem build_chain_mem_ids (revisions : List RevisionRecord) (x : String)
    (hx : x ∈ build_revision_chain revisions) : x ∈ revIds revisions := by
  obtain ⟨_, r, hr, hrid⟩ := build_chain_mem revisions x hx
  show x ∈ revisions.map (fun r => r.id)
  rw [← hrid]
  exact List.mem_map_of_mem _ hr

/-- In a duplicate-free list, findIdx? for equality with the element at
    position j answers j (shifted by the start index). -/
theorem findIdx_aux (L : List String) (x : String) (j : Nat)
    (hnd : L.Nodup) (hj : L.get? j = some x) :
    ∀ s : Nat, L.findIdx? (fun y => decide (y = x)) s = some (s + j) := by
  induction L generalizing j with
  | nil =>
    intro s
    rw [List.get?_nil] at hj
    cases hj
  | cons a t ih =>
    intro s
    cases j with
    | zero =>
      rw [List.get?_cons_zero] at hj
      cases hj
      rw [List.findIdx?_cons]
      simp
    | succ j2 =>
      rw [List.get?_cons_succ] at hj
      have hx : x ∈ t := List.get?_mem hj
      have ha : ¬ a = x := by
        intro h
        subst h
        exact (List.nodup_cons.mp hnd).1 hx
      rw [List.findIdx?_cons, if_neg (by simpa using ha),
        ih j2 (List.nodup_cons.mp hnd).2 hj (s + 1)]
      congr 1
      omega

/-- When both the common and the current revision occur in the duplicate-free
    source chain, the needs_downgrade computation compares their positions. -/
theorem plan_needs_downgrade_indices (chain : List String) (cr db : String)
    (i j : Nat) (hnd : chain.Nodup)
    (hi : chain.get? i = some db) (hj : chain.get? j = some cr) (hcr : ¬ cr = "") :
    plan_needs_downgrade chain (some cr) db = decide (j < i) := by
  show (if cr = "" then false
      else if db = cr then false
      else
        match List.findIdx? (fun y => decide (y = cr)) chain,
          List.findIdx? (fun y => decide (y = db)) chain with
        | some common_idx, some current_idx => decide (common_idx < current_idx)
        | _, _ => true) = decide (j < i)
  rw [if_neg hcr]
  by_cases hdc : db = cr
  · rw [if_pos hdc]
    subst hdc
    have h1 := findIdx_aux chain db i hnd hi 0
    have h2 := findIdx_aux chain db j hnd hj 0
    rw [h1] at h2
    injection h2 with h2
    have hij : i = j := by omega
    subst hij
    simp
  · rw [if_neg hdc]
    have h1 := findIdx_aux chain cr j hnd hj 0
    have h2 := findIdx_aux chain db i hnd hi 0
    rw [h1, h2]
    show decide (0 + j < 0 + i) = decide (j < i)
    rw [Nat.zero_add, Nat.zero_add]

/-- C3: for a non-ghost planning call with the current db revision at index i
    of the source chain and the common revision at index j ≤ i, the returned
    plan has needs_downgrade = true exactly when i > j. -/
theorem C3_needs_downgrade_iff_ahead
    (current_revisions target_revisions : List RevisionRecord)
    (bs : String → List String) (db cr : String) (i j : Nat)
    (hi : (build_revision_chain current_revisions).get? i = some db)
    (hj : (build_revision_chain current_revisions).get? j = some cr)
    (hcommon : find_common_revision current_revisions target_revisions = some cr)
    (hji : j ≤ i) :
    ∃ p, get_migration_plan (some db) current_revisions target_revisions bs =
        PlanOutcome.plan p ∧
      (p.needs_downgrade = true ↔ j < i) := by
  have hdbmem : db ∈ build_revision_chain current_revisions := List.get?_mem hi
  have hcrmem : cr ∈ build_revision_chain current_revisions := List.get?_mem hj
  have hdbne := (build_chain_mem current_revisions db hdbmem).1
  have hcrne := (build_chain_mem current_revisions cr hcrmem).1
  have hdbids := build_chain_mem_ids current_revisions db hdbmem
  have hne : ¬ (current_revisions = [] ∧ target_revisions = []) := by
    intro hand
    rw [hand.1] at hdbmem
    cases hdbmem
  simp only [get_migration_plan]
  rw [if_neg hdbne, if_neg hne, if_pos hdbids]
  refine ⟨_, rfl, ?_⟩
  show plan_needs_downgrade (build_revision_chain current_revisions)
    (find_common_revision current_revisions target_revisions) db = true ↔ j < i
  rw [hcommon, plan_needs_downgrade_indices (build_revision_chain current_revisions)
    cr db i j (build_chain_nodup current_revisions) hi hj hcrne]
  exact decide_eq_true_iff

/-- C3 witness: source chain a1, b2, c3 with db at index 2 and common revision
    b2 at index 1 against the diverged target: downgrade needed. -/
theorem C3_witness :
    ∃ p, get_migration_plan (some ("c3c3c3c3c3c3")) [exRecA, exRecB, exRecC]
        [exRecA, exRecB, exRecD] (fun _ => []) = PlanOutcome.plan p ∧
      (p.needs_downgrade = true ↔ 1 < 2) :=
  C3_needs_downgrade_iff_ahead [exRecA, exRecB, exRecC] [exRecA, exRecB, exRecD]
    (fun _ => []) ("c3c3c3c3c3c3") ("b2b2b2b2b2b2") 2 1 (by decide) (by decide)
    (by decide) (by decide)

/-- A fork record: c3 chained directly onto a1, so it lies off the source chain
    whenever b2 wins the head search. -/
def exRecCfork : RevisionRecord := ⟨"c3c3c3c3c3c3", some ("a1a1a1a1a1a1"), "v/c.py"⟩

/-- C4 counterexample: db c3 is absent from the source chain (which is a1, b2,
    because c3 is a fork off a1 in the source record set) and present in the
    target chain a1, c3 — yet the code takes the non-ghost path, because c3 is
    among the source record ids, and returns needs_downgrade = true. -/
theorem C4_counterexample_fork :
    (¬ "c3c3c3c3c3c3" ∈ build_revision_chain [exRecA, exRecB, exRecCfork]) ∧
    "c3c3c3c3c3c3" ∈ build_revision_chain [exRecA, exRecCfork] ∧
    get_migration_plan (some ("c3c3c3c3c3c3")) [exRecA, exRecB, exRecCfork]
        [exRecA, exRecCfork] (fun _ => []) =
      PlanOutcome.plan ⟨"c3c3c3c3c3c3", some ("a1a1a1a1a1a1"), some ("c3c3c3c3c3c3"),
        true, false⟩ := by
  refine ⟨by decide, by decide, by decide⟩

/-- C4 amended: when the current db revision is the id of no source-branch
    record (the ghost test the code performs) and occurs in the target chain,
    the plan has needs_downgrade = false, and needs_upgrade = true exactly when
    the target chain head exists and differs from the db revision. -/
theorem C4_ghost_reachable_in_target
    (current_revisions target_revisions : List RevisionRecord)
    (bs : String → List String) (db : String)
    (hghost : ¬ db ∈ revIds current_revisions)
    (htgt : db ∈ build_revision_chain target_revisions) :
    ∃ p, get_migration_plan (some db) current_revisions target_revisions bs =
        PlanOutcome.plan p ∧
      p.needs_downgrade = false ∧
      (p.needs_upgrade = true ↔
        ∃ h, (build_revision_chain target_revisions).getLast? = some h ∧ ¬ h = db) := by
  have hdbne := (build_chain_mem target_revisions db htgt).1
  have htgtids := build_chain_mem_ids target_revisions db htgt
  have hne : ¬ (current_revisions = [] ∧ target_revisions = []) := by
    intro hand
    rw [hand.2] at htgt
    cases htgt
  simp only [get_migration_plan]
  rw [if_neg hdbne, if_neg hne, if_neg hghost, if_pos htgtids]
  refine ⟨_, rfl, rfl, ?_⟩
  show plan_needs_upgrade (build_revision_chain target_revisions).getLast? db = true ↔ _
  cases hlast : (build_revision_chain target_revisions).getLast? with
  | none =>
    exfalso
    have hnil := List.getLast?_eq_none.mp hlast
    rw [hnil] at htgt
    cases htgt
  | some h =>
    have hh : h ∈ build_revision_chain target_revisions := mem_of_getLast_eq_some hlast
    have hhne := (build_chain_mem target_revisions h hh).1
    constructor
    · intro hup
      refine ⟨h, rfl, ?_⟩
      have hup2 : (if h = "" then false else if h = db then false else true) = true := hup
      rw [if_neg hhne] at hup2
      by_cases hhd : h = db
      · rw [if_pos hhd] at hup2
        cases hup2
      · exact hhd
    · rintro ⟨h2, hh2, hna⟩
      injection hh2 with hh2
      subst hh2
      show (if h = "" then false else if h = db then false else true) = true
      rw [if_neg hhne, if_neg hna]

/-- C4 witness: db b2 is no source record id and sits in the target chain whose
    head b2 equals it, so neither downgrade nor upgrade is needed. -/
theorem C4_witness :
    ∃ p, get_migration_plan (some ("b2b2b2b2b2b2")) [exRecA] [exRecA, exRecB]
        (fun _ => []) = PlanOutcome.plan p ∧
      p.needs_downgrade = false ∧
      (p.needs_upgrade = true ↔
        ∃ h, (build_revision_chain [exRecA, exRecB]).getLast? = some h ∧
          ¬ h = "b2b2b2b2b2b2") :=
  C4_ghost_reachable_in_target [exRecA] [exRecA, exRecB] (fun _ => []) ("b2b2b2b2b2b2")
    (by decide) (by decide)

/-- A record list is one linear chain hanging off the given predecessor: the
    first record chains onto p and every further record onto the one before. -/
def chainLinkedB : Option String → List RevisionRecord → Bool
  | _, [] => true
  | p, r :: rest => (r.down_revision = p) && chainLinkedB (some r.id) rest

/-- The id a chain segment ends in: the last record id, or the predecessor for
    an empty segment. -/
def endId (p : Option String) (l : List RevisionRecord) : Option String :=
  match l.getLast? with
  | none => p
  | some r => some r.id

theorem endId_nil (p : Option String) : endId p [] = p := rfl

theorem endId_cons (p : Option String) (r : RevisionRecord) (t : List RevisionRecord) :
    endId p (r :: t) = endId (some r.id) t := by
  cases t with
  | nil => rfl
  | cons r2 t2 =>
    show endId p (r :: r2 :: t2) = endId (some r.id) (r2 :: t2)
    unfold endId
    rw [List.getLast?_cons_cons]
    cases hg : (r2 :: t2).getLast? with
    | none =>
      exfalso
      have := List.getLast?_eq_none.mp hg
      cases this
    | some q => rfl

theorem endId_concat (p : Option String) (l : List RevisionRecord) (q : RevisionRecord) :
    endId p (l ++ [q]) = some q.id := by
  unfold endId
  rw [List.getLast?_concat]

theorem chainLinkedB_cons (p : Option String) (r : RevisionRecord)
    (rest : List RevisionRecord) :
    chainLinkedB p (r :: rest) =
      ((r.down_revision = p) && chainLinkedB (some r.id) rest) := rfl

/-- Linking splits over append: the tail segment hangs off the end id of the
    front segment. -/
theorem chainLinkedB_append (l1 : List RevisionRecord) :
    ∀ (l2 : List RevisionRecord) (p : Option String),
    chainLinkedB p (l1 ++ l2) = true ↔
      (chainLinkedB p l1 = true ∧ chainLinkedB (endId p l1) l2 = true) := by
  induction l1 with
  | nil =>
    intro l2 p
    simp [chainLinkedB, endId_nil]
  | cons r t ih =>
    intro l2 p
    show chainLinkedB p (r :: (t ++ l2)) = true ↔ _
    rw [chainLinkedB_cons, chainLinkedB_cons, Bool.and_eq_true, Bool.and_eq_true,
      ih l2 (some r.id), endId_cons]
    tauto

/-- Which ids occur as a down-revision inside one linear segment: the start id
    when the segment is non-empty, and every id except the last one. -/
theorem downs_iff (l : List RevisionRecord) :
    ∀ (p : Option String), chainLinkedB p l = true →
    ∀ x, ¬ x = "" →
    ((∃ r ∈ l, r.down_revision = some x) ↔
      ((¬ l = []) ∧ p = some x) ∨ x ∈ revIds l.dropLast) := by
  induction l with
  | nil =>
    intro p _ x _
    simp [revIds]
  | cons r rest ih =>
    intro p hlink x hx
    have hl1 : r.down_revision = p := by
      simp only [chainLinkedB, Bool.and_eq_true, decide_eq_true_eq] at hlink
      exact hlink.1
    have hl2 : chainLinkedB (some r.id) rest = true := by
      simp only [chainLinkedB, Bool.and_eq_true] at hlink
      exact hlink.2
    have hrest := ih (some r.id) hl2 x hx
    cases rest with
    | nil =>
      constructor
      · rintro ⟨q, hq, hqd⟩
        have hqr : q = r := List.mem_singleton.mp hq
        subst hqr
        left
        exact ⟨by simp, by rw [← hl1, hqd]⟩
      · rintro (⟨_, hp⟩ | hmem)
        · exact ⟨r, List.mem_singleton_self r, by rw [hl1, hp]⟩
        · cases hmem
    | cons r2 rest2 =>
      have hdrop : (r :: r2 :: rest2).dropLast = r :: (r2 :: rest2).dropLast := rfl
      have hrevdrop : revIds ((r :: r2 :: rest2).dropLast) =
          r.id :: revIds ((r2 :: rest2).dropLast) := by rw [hdrop]; rfl
      constructor
      · rintro ⟨q, hq, hqd⟩
        rcases List.mem_cons.mp hq with hqr | hq2
        · subst hqr
          left
          exact ⟨by simp, by rw [← hl1, hqd]⟩
        · have hfwd := hrest.mp ⟨q, hq2, hqd⟩
          rcases hfwd with ⟨_, hpx⟩ | hmem
          · right
            rw [hrevdrop]
            injection hpx with hpx
            rw [← hpx]
            exact List.mem_cons_self _ _
          · right
            rw [hrevdrop]
            exact List.mem_cons_of_mem _ hmem
      · rintro (⟨_, hp⟩ | hmem)
        · exact ⟨r, List.mem_cons_self _ _, by rw [hl1, hp]⟩
        · rw [hrevdrop] at hmem
          rcases List.mem_cons.mp hmem with hxr | hxd
          · obtain ⟨q, hq, hqd⟩ := hrest.mpr (Or.inl ⟨by simp, by rw [hxr]⟩)
            exact ⟨q, List.mem_cons_of_mem _ hq, hqd⟩
          · obtain ⟨q, hq, hqd⟩ := hrest.mpr (Or.inr hxd)
            exact ⟨q, List.mem_cons_of_mem _ hq, hqd⟩

/-- Boolean contains agrees with membership for string lists. -/
theorem contains_iff_mem (cs : List String) (x : String) :
    cs.contains x = true ↔ x ∈ cs := by
  simp [List.contains]

/-- Membership in the children set of build_revision_chain. -/
theorem children_mem (revs : List RevisionRecord) (x : String) :
    x ∈ chain_children revs ↔
      ∃ q ∈ revs, q.down_revision = some x ∧ ¬ x = "" := by
  unfold chain_children
  rw [List.mem_filterMap]
  constructor
  · rintro ⟨q, hq, hf⟩
    by_cases ht : truthyOpt q.down_revision = true
    · rw [if_pos ht] at hf
      refine ⟨q, hq, hf, ?_⟩
      rw [hf] at ht
      simpa [truthyOpt] using ht
    · rw [if_neg ht] at hf
      cases hf
  · rintro ⟨q, hq, hd, hx⟩
    refine ⟨q, hq, ?_⟩
    have ht : truthyOpt q.down_revision = true := by
      rw [hd]
      simpa [truthyOpt] using hx
    rw [if_pos ht, hd]

/-- A middle record id of a duplicate-free list avoids the suffix ids. -/
theorem nodup_middle_not_in_suf (pre suf : List RevisionRecord) (r : RevisionRecord)
    (hnd : (revIds (pre ++ r :: suf)).Nodup) : ¬ r.id ∈ revIds suf := by
  have hsplit : revIds (pre ++ r :: suf) = revIds pre ++ r.id :: revIds suf := by
    simp [revIds]
  rw [hsplit] at hnd
  have h2 := (List.nodup_append.mp hnd).2.1
  exact (List.nodup_cons.mp h2).1

/-- Walking back from the head of one linear segment visits exactly the
    segment, root-first. -/
theorem walk_linear (revs : List RevisionRecord) (pre : List RevisionRecord) :
    ∀ (r : RevisionRecord) (suf : List RevisionRecord) (fuel : Nat) (acc : List String),
    pre.length + 1 ≤ fuel →
    chainLinkedB none (pre ++ r :: suf) = true →
    (∀ q ∈ pre ++ r :: suf, rev_lookup revs q.id = some q) →
    (∀ q ∈ pre ++ r :: suf, ¬ q.id = "") →
    (revIds (pre ++ r :: suf)).Nodup →
    chainWalk revs fuel (some r.id) (revIds suf) acc = revIds (pre ++ [r]) ++ acc := by
  induction pre using List.reverseRecOn with
  | nil =>
    intro r suf fuel acc hfuel hlink hlook hids hnd
    obtain ⟨f, rfl⟩ : ∃ f, fuel = f + 1 := ⟨fuel - 1, by omega⟩
    have hm : r ∈ ([] : List RevisionRecord) ++ r :: suf := by simp
    have hc : ¬ r.id = "" := hids r hm
    have hl : rev_lookup revs r.id = some r := hlook r hm
    have hv : ¬ r.id ∈ revIds suf := nodup_middle_not_in_suf [] suf r hnd
    rw [chainWalk_succ_go revs f r.id (revIds suf) acc r hc hl hv]
    have hdown : r.down_revision = none := by
      rw [List.nil_append, chainLinkedB_cons, Bool.and_eq_true, decide_eq_true_eq] at hlink
      exact hlink.1
    rw [hdown, chainWalk_none]
    rfl
  | append_singleton pre q ih =>
    intro r suf fuel acc hfuel hlink hlook hids hnd
    obtain ⟨f, rfl⟩ : ∃ f, fuel = f + 1 := ⟨fuel - 1, by omega⟩
    have hm : r ∈ (pre ++ [q]) ++ r :: suf := by simp
    have hc : ¬ r.id = "" := hids r hm
    have hl : rev_lookup revs r.id = some r := hlook r hm
    have hv : ¬ r.id ∈ revIds suf := nodup_middle_not_in_suf (pre ++ [q]) suf r hnd
    rw [chainWalk_succ_go revs f r.id (revIds suf) acc r hc hl hv]
    have hdown : r.down_revision = some q.id := by
      have hsplit := (chainLinkedB_append (pre ++ [q]) (r :: suf) none).mp hlink
      have h2 := hsplit.2
      rw [endId_concat, chainLinkedB_cons, Bool.and_eq_true, decide_eq_true_eq] at h2
      exact h2.1
    rw [hdown]
    have hlist : (pre ++ [q]) ++ r :: suf = pre ++ q :: (r :: suf) := by simp
    rw [hlist] at hlink hlook hids hnd
    have hfuel2 : pre.length + 1 ≤ f := by
      rw [List.length_append, List.length_singleton] at hfuel
      omega
    have hstep := ih q (r :: suf) f (r.id :: acc) hfuel2 hlink hlook hids hnd
    have hvis : revIds (r :: suf) = r.id :: revIds suf := rfl
    rw [hvis] at hstep
    rw [hstep]
    simp [revIds]

/-- On a permuted linear chain with truthy duplicate-free ids, the head search
    of build_revision_chain finds exactly the last record of the chain. -/
theorem head_is_last (revs l : List RevisionRecord)
    (hperm : revs.Perm l)
    (hlin : chainLinkedB none l = true)
    (hnd : (revIds l).Nodup)
    (hids : ∀ r ∈ l, ¬ r.id = "")
    (hne : l ≠ []) :
    revs.find? (fun r => !((chain_children revs).contains r.id)) =
      some (l.getLast hne) := by
  have hpred : ∀ q ∈ l, ((!((chain_children revs).contains q.id)) = true ↔
      ¬ q.id ∈ revIds l.dropLast) := by
    intro q hq
    have hqne := hids q hq
    rw [Bool.not_eq_true']
    constructor
    · intro hcont hmem
      obtain ⟨rr, hrr, hrrd⟩ :=
        (downs_iff l none hlin q.id hqne).mpr (Or.inr hmem)
      have hmemc : q.id ∈ chain_children revs :=
        (children_mem revs q.id).mpr ⟨rr, hperm.mem_iff.mpr hrr, hrrd, hqne⟩
      rw [← contains_iff_mem] at hmemc
      rw [hcont] at hmemc
      cases hmemc
    · intro hnmem
      cases hcont : (chain_children revs).contains q.id with
      | false => rfl
      | true =>
        exfalso
        have hmemc := (contains_iff_mem _ _).mp hcont
        obtain ⟨rr, hrr, hrrd, _⟩ := (children_mem revs q.id).mp hmemc
        have hex := (downs_iff l none hlin q.id hqne).mp ⟨rr, hperm.mem_iff.mp hrr, hrrd⟩
        rcases hex with ⟨_, habs⟩ | hmem
        · cases habs
        · exact hnmem hmem
  have hlast_mem_l : l.getLast hne ∈ l := List.getLast_mem hne
  have hlast_mem : l.getLast hne ∈ revs := hperm.mem_iff.mpr hlast_mem_l
  have hsplitl : l.dropLast ++ [l.getLast hne] = l := List.dropLast_append_getLast hne
  have hrevsplit : revIds l.dropLast ++ [(l.getLast hne).id] = revIds l := by
    conv_rhs => rw [← hsplitl]
    simp [revIds]
  have hndsplit : (revIds l.dropLast ++ [(l.getLast hne).id]).Nodup := by
    rw [hrevsplit]
    exact hnd
  have hlast_pred : (!((chain_children revs).contains (l.getLast hne).id)) = true := by
    rw [hpred (l.getLast hne) hlast_mem_l]
    intro hmem
    have hdisj := (List.nodup_append.mp hndsplit).2.2
    exact hdisj hmem (List.mem_singleton_self _)
  cases hfind : revs.find? (fun r => !((chain_children revs).contains r.id)) with
  | none =>
    exfalso
    exact absurd hlast_pred (List.find?_eq_none.mp hfind _ hlast_mem)
  | some rf =>
    have hp := List.find?_some hfind
    have hm := List.mem_of_find?_eq_some hfind
    have hmf : rf ∈ l := hperm.mem_iff.mp hm
    have hfp := (hpred rf hmf).mp hp
    have hrfid : rf.id ∈ revIds l := by
      show rf.id ∈ l.map (fun r => r.id)
      exact List.mem_map_of_mem _ hmf
    rw [← hrevsplit] at hrfid
    rcases List.mem_append.mp hrfid with hmem | hmem
    · exact absurd hmem hfp
    · have hideq : rf.id = (l.getLast hne).id := List.mem_singleton.mp hmem
      have hnd2 : (l.map (fun r => r.id)).Nodup := hnd
      have hrfeq : rf = l.getLast hne :=
        List.inj_on_of_nodup_map hnd2 hmf hlast_mem_l hideq
      rw [hrfeq]

/-- When the head search succeeds with a truthy id, chain_head returns it. -/
theorem chain_head_eq (r0 : RevisionRecord) (revs : List RevisionRecord)
    (rf : RevisionRecord)
    (hfind : revs.find? (fun r => !((chain_children revs).contains r.id)) = some rf)
    (hrfne : ¬ rf.id = "") : chain_head r0 revs = rf.id := by
  unfold chain_head
  split
  · next r heq =>
    rw [hfind] at heq
    injection heq with heq
    subst heq
    rw [if_neg hrfne]
  · next heq =>
    rw [hfind] at heq
    cases heq

/-- C2 counterexample: two root records with distinct non-empty ids and no
    down-revision link at all (so certainly no cycle); the returned chain
    keeps only the first root, length 1, while there are 2 distinct ids. -/
theorem C2_counterexample_two_roots :
    build_revision_chain
        [⟨"aaa111aaa111", none, "v/a.py"⟩, ⟨"bbb222bbb222", none, "v/b.py"⟩] =
      ["aaa111aaa111"] ∧
    ((revIds [⟨"aaa111aaa111", none, "v/a.py"⟩,
        ⟨"bbb222bbb222", none, "v/b.py"⟩]).dedup).length = 2 := by
  exact ⟨by decide, by decide⟩

/-- C2 amended: for every record set that is a permutation of a single linear
    chain with distinct truthy ids, build_revision_chain returns exactly that
    ids of that chain root-to-head; in particular its length equals the number of
    distinct record ids and its first element is the id of a record with a
    null down-revision. -/
theorem C2_linear_chain_exact (revisions l : List RevisionRecord)
    (hperm : revisions.Perm l)
    (hlin : chainLinkedB none l = true)
    (hnd : (revIds l).Nodup)
    (hids : ∀ r ∈ l, ¬ r.id = "") :
    build_revision_chain revisions = revIds l ∧
    (build_revision_chain revisions).length = ((revIds revisions).dedup).length ∧
    (∀ c rest, build_revision_chain revisions = c :: rest →
      ∃ r ∈ revisions, r.id = c ∧ r.down_revision = none) := by
  have hndl : (l.map (fun r => r.id)).Nodup := hnd
  have hndrevs : (revIds revisions).Nodup := by
    show (revisions.map (fun r => r.id)).Nodup
    exact ((hperm.map (fun r => r.id)).nodup_iff).mpr hndl
  have hdedup : (revIds revisions).dedup = revIds revisions :=
    List.dedup_eq_self.mpr hndrevs
  have hlenrevs : (revIds revisions).length = l.length := by
    show (revisions.map (fun r => r.id)).length = l.length
    rw [List.length_map, hperm.length_eq]
  by_cases hln : l = []
  · subst hln
    have hrev : revisions = [] := hperm.eq_nil
    subst hrev
    exact ⟨rfl, rfl, fun c rest h => by cases h⟩
  · have hrevne : revisions ≠ [] := by
      intro h
      subst h
      exact hln (hperm.symm.eq_nil)
    obtain ⟨r0, rest, hrv⟩ : ∃ r0 rest, revisions = r0 :: rest := by
      cases revisions with
      | nil => exact absurd rfl hrevne
      | cons a b => exact ⟨a, b, rfl⟩
    subst hrv
    have hfind := head_is_last (r0 :: rest) l hperm hlin hnd hids hln
    have hlast_ne : ¬ (l.getLast hln).id = "" := hids _ (List.getLast_mem hln)
    have hhead : chain_head r0 (r0 :: rest) = (l.getLast hln).id :=
      chain_head_eq r0 (r0 :: rest) (l.getLast hln) hfind hlast_ne
    have hlookAll : ∀ q ∈ l, rev_lookup (r0 :: rest) q.id = some q := by
      intro q hq
      exact rev_lookup_nodup (r0 :: rest) hndrevs q (hperm.mem_iff.mpr hq)
    have hsplitl : l.dropLast ++ [l.getLast hln] = l := List.dropLast_append_getLast hln
    have hfuel : l.dropLast.length + 1 ≤ ((revIds (r0 :: rest)).dedup).length := by
      rw [hdedup, hlenrevs]
      have hdl := List.length_dropLast l
      have hlen1 : 1 ≤ l.length := List.length_pos.mpr hln
      omega
    have hwalk := walk_linear (r0 :: rest) l.dropLast (l.getLast hln) []
      (((revIds (r0 :: rest)).dedup).length) []
      hfuel
      (by rw [show l.dropLast ++ (l.getLast hln) :: [] = l from hsplitl]; exact hlin)
      (by rw [show l.dropLast ++ (l.getLast hln) :: [] = l from hsplitl]; exact hlookAll)
      (by rw [show l.dropLast ++ (l.getLast hln) :: [] = l from hsplitl]; exact hids)
      (by rw [show l.dropLast ++ (l.getLast hln) :: [] = l from hsplitl]; exact hnd)
    rw [show (revIds ([] : List RevisionRecord)) = ([] : List String) from rfl] at hwalk
    have hmain : build_revision_chain (r0 :: rest) = revIds l := by
      show chainWalk (r0 :: rest) (((revIds (r0 :: rest)).dedup).length)
        (some (chain_head r0 (r0 :: rest))) [] [] = revIds l
      rw [hhead, hwalk, List.append_nil, hsplitl]
    refine ⟨hmain, ?_, ?_⟩
    · rw [hmain, hdedup]
      show (l.map (fun r => r.id)).length = (revIds (r0 :: rest)).length
      rw [List.length_map, hlenrevs]
    · intro c rest2 hc
      rw [hmain] at hc
      cases hll : l with
      | nil => exact absurd hll hln
      | cons l0 lt =>
        rw [hll] at hc hlin
        have hidc : l0.id = c := by
          have h2 := congrArg List.head? hc
          simpa [revIds] using h2
        have hdown : l0.down_revision = none := by
          rw [chainLinkedB_cons, Bool.and_eq_true, decide_eq_true_eq] at hlin
          exact hlin.1
        refine ⟨l0, ?_, hidc, hdown⟩
        refine hperm.mem_iff.mpr ?_
        rw [hll]
        exact List.mem_cons_self _ _

/-- C2 witness: the two-record linear chain b2 onto a1 given in shuffled
    order; the chain comes back root-first with the root down-revision null. -/
theorem C2_witness :
    build_revision_chain [exRecB, exRecA] = revIds [exRecA, exRecB] ∧
    (build_revision_chain [exRecB, exRecA]).length =
      ((revIds [exRecB, exRecA]).dedup).length ∧
    (∀ c rest, build_revision_chain [exRecB, exRecA] = c :: rest →
      ∃ r ∈ [exRecB, exRecA], r.id = c ∧ r.down_revision = none) :=
  C2_linear_chain_exact [exRecB, exRecA] [exRecA, exRecB]
    (List.Perm.swap exRecA exRecB []) (by decide) (by decide) (by decide)
